import Mathlib

open List

/-!  Verification of the logic-based explainer (src/logicxplainer.py).

The file embeds the algorithms of the class LogicXplainer: the deletion-based
minimizers axp_del / cxp_del, the QuickXplain minimizers axp_qxp / cxp_qxp,
the MARCO-style enumeration loop enum, and the checkers check_axp / check_cxp.
The user-supplied oracles waxp and wcxp are modelled as boolean functions on
lists of feature indices; the external SAT solver driving enum is modelled as a
nondeterministic choice of a satisfying assignment, so the loop becomes a
transition relation on the clause database plus the two explanation
collections.  -/

/-- Oracle monotonicity, the contract the spec assumes for both waxp and wcxp:
enlarging the queried set of feature indices preserves a true answer. -/
def OMono (oracle : List Nat → Bool) : Prop :=
  ∀ T U : List Nat, (∀ x ∈ T, x ∈ U) → oracle T = true → oracle U = true

/-- The loop of LogicXplainer.axp_del and LogicXplainer.cxp_del
(src/logicxplainer.py lines 54-60 and 118-124).  The Python for-statement
iterates over the initial list object while the name fix is rebound to the
shrunken copy, so the first argument ranges over the original list and the
second is the working set; the body tmp_fix = fix[:]; tmp_fix.remove(i) is
List.erase, and the removal is committed when the oracle still holds. -/
def del_loop (oracle : List Nat → Bool) : List Nat → List Nat → List Nat
  | [], fix => fix
  | i :: rest, fix =>
    if oracle (fix.erase i) then del_loop oracle rest (fix.erase i)
    else del_loop oracle rest fix

/-- LogicXplainer.axp_del: deletion-based extraction of one AXp. -/
def axp_del (waxp : List Nat → Bool) (fixed : List Nat) : List Nat :=
  del_loop waxp fixed fixed

/-- LogicXplainer.cxp_del: deletion-based extraction of one CXp
(same loop, dual oracle). -/
def cxp_del (wcxp : List Nat → Bool) (universal : List Nat) : List Nat :=
  del_loop wcxp universal universal

/-- Number of oracle queries made by del_loop: the loop body queries the
oracle exactly once per iteration. -/
def del_loop_calls (oracle : List Nat → Bool) : List Nat → List Nat → Nat
  | [], _ => 0
  | i :: rest, fix =>
    1 + (if oracle (fix.erase i) then del_loop_calls oracle rest (fix.erase i)
         else del_loop_calls oracle rest fix)

/-- Oracle queries made by axp_del on the given input. -/
def axp_del_calls (waxp : List Nat → Bool) (fixed : List Nat) : Nat :=
  del_loop_calls waxp fixed fixed

/-- Oracle queries made by cxp_del on the given input. -/
def cxp_del_calls (wcxp : List Nat → Bool) (universal : List Nat) : Nat :=
  del_loop_calls wcxp universal universal

/-- The split performed by qxp_recur (lines 86-88 and 150-152):
u = int(len(Z)/2); Z1 = Z[:u]; Z2 = Z[u:]. -/
def qxpSplit (Z : List Nat) : List Nat × List Nat :=
  (Z.take (Z.length / 2), Z.drop (Z.length / 2))

/-- Fuel-indexed embedding of the recursion qxp_recur shared by
LogicXplainer.axp_qxp and LogicXplainer.cxp_qxp (src/logicxplainer.py lines
81-91 and 145-155; the two closures are textually identical up to the oracle
they consult).  A result of none models a recursion that does not terminate
within the given depth; the recursion of the source has no other exit. -/
def qxpF (oracle : List Nat → Bool) : Nat → List Nat → List Nat → Bool → Option (List Nat)
  | 0, _, _, _ => none
  | fuel + 1, B, Z, newB =>
    if newB && oracle B then some []
    else if Z.length = 1 then some Z
    else
      (qxpF oracle fuel (B ++ (qxpSplit Z).1) (qxpSplit Z).2
          (decide (0 < (qxpSplit Z).1.length))).bind fun Q2 =>
        (qxpF oracle fuel (B ++ Q2) (qxpSplit Z).1 (decide (0 < Q2.length))).bind fun Q1 =>
          some (Q1 ++ Q2)

/-- LogicXplainer.axp_qxp: the top-level call qxp_recur([], fixed, False).
The depth fixed.length is sufficient for every nonempty input
(theorem qxpF_isSome below), so for those inputs the fuel is irrelevant. -/
def axp_qxp (waxp : List Nat → Bool) (fixed : List Nat) : Option (List Nat) :=
  qxpF waxp fixed.length [] fixed false

/-- LogicXplainer.cxp_qxp: the top-level call qxp_recur([], universal, False). -/
def cxp_qxp (wcxp : List Nat → Bool) (universal : List Nat) : Option (List Nat) :=
  qxpF wcxp universal.length [] universal false

/-- The minimality loop of check_axp / check_cxp (lines 252-257 and 275-280);
there the working list is never rebound, so the loop tests every element of the
candidate against the unchanged candidate. -/
def check_loop (oracle : List Nat → Bool) (fix : List Nat) : List Nat → Bool
  | [] => true
  | i :: rest => if oracle (fix.erase i) then false else check_loop oracle fix rest

/-- LogicXplainer.check_axp (lines 237-258): a candidate passes when the
oracle holds on it and no single-element removal keeps the oracle true. -/
def check_axp (waxp : List Nat → Bool) (axp : List Nat) : Bool :=
  if waxp axp then check_loop waxp axp axp else false

/-- LogicXplainer.check_cxp (lines 260-281), the mirror of check_axp. -/
def check_cxp (wcxp : List Nat → Bool) (cxp : List Nat) : Bool :=
  if wcxp cxp then check_loop wcxp cxp cxp else false

/-- The two values accepted by the alg parameter of LogicXplainer.enum. -/
inductive Alg
  | del
  | qxp

/-- The minimizer invoked on the fixed part in the AXp branch of enum
(lines 221-224). -/
def axp_min (alg : Alg) (waxp : List Nat → Bool) (fix : List Nat) : Option (List Nat) :=
  match alg with
  | Alg.del => some (axp_del waxp fix)
  | Alg.qxp => axp_qxp waxp fix

/-- The minimizer invoked on the universal part in the CXp branch of enum
(lines 213-216). -/
def cxp_min (alg : Alg) (wcxp : List Nat → Bool) (univ : List Nat) : Option (List Nat) :=
  match alg with
  | Alg.del => some (cxp_del wcxp univ)
  | Alg.qxp => cxp_qxp wcxp univ

/-- A blocking clause added by enum.  pos a is [new_var(u_i) for i in axp]
(at least one feature of a must be universal next time, line 226); neg c is
[-new_var(u_i) for i in cxp] (at least one feature of c must be fixed next
time, line 218).  The solver variable u_i is identified with the feature
index i, which is faithful because the variable pool maps the name u_i to a
unique id. -/
inductive BClause
  | pos (a : List Nat)
  | neg (c : List Nat)

/-- The feature indices a blocking clause mentions. -/
def clVars : BClause → List Nat
  | BClause.pos a => a
  | BClause.neg c => c

/-- Truth of a blocking clause under a total assignment of the u_i variables;
σ i = true means feature i is declared universal. -/
def bsat (σ : Nat → Bool) : BClause → Bool
  | BClause.pos a => a.any fun i => σ i
  | BClause.neg c => c.any fun i => !(σ i)

/-- An assignment satisfies the whole clause database. -/
def satAll (clauses : List BClause) (σ : Nat → Bool) : Bool :=
  clauses.all (bsat σ)

/-- fix = [i for i in feats_idx if i not in univ] (line 211). -/
def enumFix (feats univ : List Nat) : List Nat :=
  feats.filter fun i => !(decide (i ∈ univ))

/-- State of the enumeration loop: the solver clause database plus the two
growing explanation collections. -/
structure EState where
  clauses : List BClause
  axps : List (List Nat)
  cxps : List (List Nat)

/-- Runs of the while-loop of LogicXplainer.enum (lines 203-227), one step per
successful solve() call.  The incremental SAT solver is external to the
repository and free to return any model of the current clause database, so a
step consumes an arbitrary assignment σ with satAll true; the universal set
read off the model in feature order is feats.filter σ.  The first component
records the sampled assignments, one per loop iteration. -/
inductive ERun (alg : Alg) (waxp wcxp : List Nat → Bool) (feats : List Nat) :
    List (Nat → Bool) → EState → Prop
  | init : ERun alg waxp wcxp feats [] ⟨[], [], []⟩
  | stepC (σs : List (Nat → Bool)) (s : EState) (σ : Nat → Bool) (c : List Nat)
      (hrun : ERun alg waxp wcxp feats σs s)
      (hsat : satAll s.clauses σ = true)
      (hcls : wcxp (feats.filter σ) = true)
      (hmin : cxp_min alg wcxp (feats.filter σ) = some c) :
      ERun alg waxp wcxp feats (σs ++ [σ])
        ⟨s.clauses ++ [BClause.neg c], s.axps, s.cxps ++ [c]⟩
  | stepA (σs : List (Nat → Bool)) (s : EState) (σ : Nat → Bool) (a : List Nat)
      (hrun : ERun alg waxp wcxp feats σs s)
      (hsat : satAll s.clauses σ = true)
      (hcls : wcxp (feats.filter σ) = false)
      (hmin : axp_min alg waxp (enumFix feats (feats.filter σ)) = some a) :
      ERun alg waxp wcxp feats (σs ++ [σ])
        ⟨s.clauses ++ [BClause.pos a], s.axps ++ [a], s.cxps⟩

/-- The duality contract linking the two oracles over a feature universe
(spec, concrete scenario 2): declaring a set universal can flip the outcome
exactly when fixing its complement is not sufficient. -/
def EDual (feats : List Nat) (waxp wcxp : List Nat → Bool) : Prop :=
  ∀ σ : Nat → Bool, wcxp (feats.filter σ) = !(waxp (feats.filter fun i => !(σ i)))

/-- Two explanation lists with the same members denote the same explanation
(the spec gives explanations no identity beyond their element content). -/
def EqSet (a b : List Nat) : Prop := ∀ x, x ∈ a ↔ x ∈ b

/-- Binary value of an assignment restricted to the feature list, used to
bound the number of loop iterations by 2 ^ feats.length. -/
def bitsToNat : List Bool → Nat
  | [] => 0
  | b :: r => (if b then 1 else 0) + 2 * bitsToNat r

/-- Events printed by the operations; wall-clock values are abstracted away
because they are not functions of the inputs. -/
inductive PrintEvent
  | axpDel (xs : List Nat)
  | axpQxp (xs : List Nat)
  | cxpDel (xs : List Nat)
  | cxpQxp (xs : List Nat)
  | runtime
  | countAXp (n : Nat)
  | countCXp (n : Nat)
  | notWeak (xs : List Nat)
  | notMinimal (xs : List Nat)

/-- The verbose-gated epilogue of the four minimizers (for example lines
64-67): if verbose: (if verbose == 1: print the result); print the runtime. -/
def reportXp (verbose : Nat) (mk : List Nat → PrintEvent) (xp : List Nat) : List PrintEvent :=
  if verbose ≠ 0 then (if verbose = 1 then [mk xp] else []) ++ [PrintEvent.runtime] else []

/-- axp_del together with its printed trace (lines 52-69). -/
def axp_delT (verbose : Nat) (waxp : List Nat → Bool) (fixed : List Nat) :
    List Nat × List PrintEvent :=
  (axp_del waxp fixed, reportXp verbose PrintEvent.axpDel (axp_del waxp fixed))

/-- axp_qxp together with its printed trace (lines 93-104); a diverging
recursion produces no trace. -/
def axp_qxpT (verbose : Nat) (waxp : List Nat → Bool) (fixed : List Nat) :
    Option (List Nat) × List PrintEvent :=
  (axp_qxp waxp fixed,
    match axp_qxp waxp fixed with
    | none => []
    | some xp => reportXp verbose PrintEvent.axpQxp xp)

/-- cxp_del together with its printed trace (lines 116-133). -/
def cxp_delT (verbose : Nat) (wcxp : List Nat → Bool) (universal : List Nat) :
    List Nat × List PrintEvent :=
  (cxp_del wcxp universal, reportXp verbose PrintEvent.cxpDel (cxp_del wcxp universal))

/-- cxp_qxp together with its printed trace (lines 157-168). -/
def cxp_qxpT (verbose : Nat) (wcxp : List Nat → Bool) (universal : List Nat) :
    Option (List Nat) × List PrintEvent :=
  (cxp_qxp wcxp universal,
    match cxp_qxp wcxp universal with
    | none => []
    | some xp => reportXp verbose PrintEvent.cxpQxp xp)

/-- check_axp together with its printed trace; the two diagnostic prints of
check_axp are not gated on verbose at all (lines 249 and 256), so the verbose
argument is unused, exactly as in the source. -/
def check_axpT (verbose : Nat) (waxp : List Nat → Bool) (axp : List Nat) :
    Bool × List PrintEvent :=
  (check_axp waxp axp,
    if waxp axp = false then [PrintEvent.notWeak axp]
    else if check_loop waxp axp axp then [] else [PrintEvent.notMinimal axp])

/-- check_cxp together with its printed trace (lines 260-281). -/
def check_cxpT (verbose : Nat) (wcxp : List Nat → Bool) (cxp : List Nat) :
    Bool × List PrintEvent :=
  (check_cxp wcxp cxp,
    if wcxp cxp = false then [PrintEvent.notWeak cxp]
    else if check_loop wcxp cxp cxp then [] else [PrintEvent.notMinimal cxp])

/-- The verbose-gated epilogue of enum (lines 230-233): the explanation
collections are returned unchanged, and when verbose is nonzero the two
counts and the runtime are printed. -/
def enumReportT (verbose : Nat) (res : List (List Nat) × List (List Nat)) :
    (List (List Nat) × List (List Nat)) × List PrintEvent :=
  (res,
    if verbose ≠ 0 then
      [PrintEvent.countAXp res.1.length, PrintEvent.countCXp res.2.length, PrintEvent.runtime]
    else [])

/-- The oracle of spec concrete scenario 1:
waxp(S) = (1 in S) or (2 in S and 3 in S). -/
def wScn1 : List Nat → Bool :=
  fun l => decide (1 ∈ l) || (decide (2 ∈ l) && decide (3 ∈ l))

/-- The constant-true oracle; it is monotone. -/
def wTrue : List Nat → Bool := fun _ => true

/-- Membership oracle for feature 1; it is monotone. -/
def wHas1 : List Nat → Bool := fun l => decide (1 ∈ l)

/-- Membership oracle for feature 5; it is monotone. -/
def wHas5 : List Nat → Bool := fun l => decide (5 ∈ l)

/-- The assignment declaring exactly feature 1 universal. -/
def sigOnly1 : Nat → Bool := fun i => i == 1

/-- The all-fixed assignment (the first model the solver returns). -/
def sigNone : Nat → Bool := fun _ => false

/-- The all-universal assignment. -/
def sigAll : Nat → Bool := fun _ => true

/-- Contrapositive form of oracle monotonicity. -/
theorem OMono.contra {oracle : List Nat → Bool} (hm : OMono oracle) {T U : List Nat}
    (hsub : ∀ x ∈ T, x ∈ U) (hU : oracle U = false) : oracle T = false := by
  cases hT : oracle T with
  | false => rfl
  | true => exact absurd (hm T U hsub hT) (by simp [hU])

/-- The scenario-1 oracle is monotone. -/
theorem wScn1_mono : OMono wScn1 := by
  intro T U hsub h
  simp only [wScn1, Bool.or_eq_true, Bool.and_eq_true, decide_eq_true_eq] at h ⊢
  rcases h with h1 | h23
  · exact Or.inl (hsub 1 h1)
  · exact Or.inr ⟨hsub 2 h23.1, hsub 3 h23.2⟩

/-- The constant-true oracle is monotone. -/
theorem wTrue_mono : OMono wTrue := fun _ _ _ h => h

/-- The membership oracle for feature 1 is monotone. -/
theorem wHas1_mono : OMono wHas1 := by
  intro T U hsub h
  simp only [wHas1, decide_eq_true_eq] at h ⊢
  exact hsub 1 h

/-- The result of the deletion loop is a sublist of the working set. -/
theorem del_loop_sublist (oracle : List Nat → Bool) :
    ∀ (todo fix : List Nat), del_loop oracle todo fix <+ fix
  | [], fix => Sublist.refl fix
  | i :: rest, fix => by
    simp only [del_loop]
    cases h : oracle (fix.erase i) with
    | true =>
      simpa [h] using (del_loop_sublist oracle rest (fix.erase i)).trans (erase_sublist i fix)
    | false => simpa [h] using del_loop_sublist oracle rest fix

/-- The deletion loop preserves a true oracle answer on the working set. -/
theorem del_loop_oracle (oracle : List Nat → Bool) :
    ∀ (todo fix : List Nat), oracle fix = true → oracle (del_loop oracle todo fix) = true
  | [], _, h => h
  | i :: rest, fix, h => by
    simp only [del_loop]
    cases he : oracle (fix.erase i) with
    | true => simpa [he] using del_loop_oracle oracle rest (fix.erase i) he
    | false => simpa [he] using del_loop_oracle oracle rest fix h

/-- Minimality invariant of the deletion loop: once every surviving element not
scheduled for a later visit has a failed removal test, the final set is
subset-minimal. -/
theorem del_loop_min {oracle : List Nat → Bool} (hm : OMono oracle) :
    ∀ (todo fix : List Nat), fix.Nodup →
      (∀ x ∈ fix, x ∉ todo → oracle (fix.erase x) = false) →
      ∀ x ∈ del_loop oracle todo fix, oracle ((del_loop oracle todo fix).erase x) = false
  | [], fix, _, hinv => fun x hx => hinv x hx (by simp)
  | i :: rest, fix, hnd, hinv => by
    simp only [del_loop]
    cases he : oracle (fix.erase i) with
    | true =>
      simp only [he, if_pos rfl]
      refine del_loop_min hm rest (fix.erase i) (hnd.erase i) ?_
      intro x hx hxr
      obtain ⟨hxi, hxf⟩ := hnd.mem_erase_iff.mp hx
      have h0 : oracle (fix.erase x) = false := hinv x hxf (by simp [hxi, hxr])
      refine hm.contra ?_ h0
      intro y hy
      rw [erase_comm] at hy
      exact (erase_sublist i (fix.erase x)).subset hy
    | false =>
      simp only [he, Bool.false_eq_true, if_false]
      refine del_loop_min hm rest fix hnd ?_
      intro x hx hxr
      by_cases hxi : x = i
      · rw [hxi]; exact he
      · exact hinv x hx (by simp [hxi, hxr])

/-- Full specification of axp_del on a duplicate-free input satisfying the
oracle: the result is a sublist, still satisfies the oracle, and is
subset-minimal. -/
theorem axp_del_spec {waxp : List Nat → Bool} (hm : OMono waxp) (S : List Nat)
    (hnd : S.Nodup) (hS : waxp S = true) :
    axp_del waxp S <+ S ∧ waxp (axp_del waxp S) = true ∧
      ∀ x ∈ axp_del waxp S, waxp ((axp_del waxp S).erase x) = false :=
  ⟨del_loop_sublist waxp S S, del_loop_oracle waxp S S hS,
    del_loop_min hm S S hnd fun x hx hx2 => absurd hx hx2⟩

/-- The deletion loop queries the oracle once per element of the visit list. -/
theorem del_loop_calls_eq (oracle : List Nat → Bool) :
    ∀ (todo fix : List Nat), del_loop_calls oracle todo fix = todo.length
  | [], _ => rfl
  | i :: rest, fix => by
    simp only [del_loop_calls, length_cons]
    cases h : oracle (fix.erase i) with
    | true => simp [h, del_loop_calls_eq oracle rest (fix.erase i), Nat.add_comm]
    | false => simp [h, del_loop_calls_eq oracle rest fix, Nat.add_comm]

/-- Whatever qxp_recur returns is a sublist of its candidate list; no oracle
assumption is needed. -/
theorem qxpF_sublist (oracle : List Nat → Bool) :
    ∀ (fuel : Nat) (B Z : List Nat) (newB : Bool) (Q : List Nat),
      qxpF oracle fuel B Z newB = some Q → Q <+ Z := by
  intro fuel
  induction fuel with
  | zero => intro B Z newB Q hq; simp [qxpF] at hq
  | succ fuel ih =>
    intro B Z newB Q hq
    simp only [qxpF] at hq
    by_cases hb : (newB && oracle B) = true
    · rw [if_pos hb] at hq
      obtain rfl : ([] : List Nat) = Q := by simpa using hq
      exact nil_sublist Z
    · rw [if_neg hb] at hq
      by_cases hl : Z.length = 1
      · rw [if_pos hl] at hq
        obtain rfl : Z = Q := by simpa using hq
        exact Sublist.refl _
      · rw [if_neg hl] at hq
        obtain ⟨Q2, hQ2, hrest⟩ := Option.bind_eq_some.mp hq
        obtain ⟨Q1, hQ1, hQ⟩ := Option.bind_eq_some.mp hrest
        obtain rfl : Q1 ++ Q2 = Q := by simpa using hQ
        have h12 : (qxpSplit Z).1 ++ (qxpSplit Z).2 = Z := take_append_drop ..
        have := (ih _ _ _ _ hQ1).append (ih _ _ _ _ hQ2)
        rwa [h12] at this

/-- Termination of qxp_recur: depth Z.length is enough fuel for every
nonempty candidate list. -/
theorem qxpF_isSome (oracle : List Nat → Bool) :
    ∀ (fuel : Nat) (B Z : List Nat) (newB : Bool), 1 ≤ Z.length → Z.length ≤ fuel →
      (qxpF oracle fuel B Z newB).isSome := by
  intro fuel
  induction fuel with
  | zero => intro B Z newB h1 h2; omega
  | succ fuel ih =>
    intro B Z newB h1 h2
    simp only [qxpF]
    by_cases hb : (newB && oracle B) = true
    · rw [if_pos hb]; rfl
    · rw [if_neg hb]
      by_cases hl : Z.length = 1
      · rw [if_pos hl]; rfl
      · rw [if_neg hl]
        have h2' : 2 ≤ Z.length := by omega
        have hlen1 : (qxpSplit Z).1.length = Z.length / 2 := by
          simp [qxpSplit, length_take]; omega
        have hlen2 : (qxpSplit Z).2.length = Z.length - Z.length / 2 := by
          simp [qxpSplit, length_drop]
        have hs2 : (qxpF oracle fuel (B ++ (qxpSplit Z).1) (qxpSplit Z).2
            (decide (0 < (qxpSplit Z).1.length))).isSome := by
          apply ih <;> omega
        obtain ⟨Q2, hQ2⟩ := Option.isSome_iff_exists.mp hs2
        rw [hQ2, Option.some_bind]
        have hs1 : (qxpF oracle fuel (B ++ Q2) (qxpSplit Z).1
            (decide (0 < Q2.length))).isSome := by
          apply ih <;> omega
        obtain ⟨Q1, hQ1⟩ := Option.isSome_iff_exists.mp hs1
        rw [hQ1, Option.some_bind]
        rfl

/-- Validity half of the qxp_recur invariant: if the base together with the
candidates satisfies the oracle, the base together with the result does. -/
theorem qxpF_valid {oracle : List Nat → Bool} (hm : OMono oracle) :
    ∀ (fuel : Nat) (B Z : List Nat) (newB : Bool) (Q : List Nat),
      oracle (B ++ Z) = true → qxpF oracle fuel B Z newB = some Q →
      oracle (B ++ Q) = true := by
  intro fuel
  induction fuel with
  | zero => intro B Z newB Q h hq; simp [qxpF] at hq
  | succ fuel ih =>
    intro B Z newB Q h hq
    simp only [qxpF] at hq
    by_cases hb : (newB && oracle B) = true
    · rw [if_pos hb] at hq
      obtain rfl : ([] : List Nat) = Q := by simpa using hq
      rw [append_nil]
      exact (Bool.and_eq_true _ _).mp hb |>.2
    · rw [if_neg hb] at hq
      by_cases hl : Z.length = 1
      · rw [if_pos hl] at hq
        obtain rfl : Z = Q := by simpa using hq
        exact h
      · rw [if_neg hl] at hq
        obtain ⟨Q2, hQ2, hrest⟩ := Option.bind_eq_some.mp hq
        obtain ⟨Q1, hQ1, hQ⟩ := Option.bind_eq_some.mp hrest
        obtain rfl : Q1 ++ Q2 = Q := by simpa using hQ
        have h12 : (qxpSplit Z).1 ++ (qxpSplit Z).2 = Z := take_append_drop ..
        have hpre2 : oracle ((B ++ (qxpSplit Z).1) ++ (qxpSplit Z).2) = true := by
          rw [append_assoc, h12]; exact h
        have hv2 := ih _ _ _ _ hpre2 hQ2
        have hpre1 : oracle ((B ++ Q2) ++ (qxpSplit Z).1) = true := by
          refine hm _ _ ?_ hv2
          intro x hx; simp only [mem_append] at hx ⊢; tauto
        have hv1 := ih _ _ _ _ hpre1 hQ1
        refine hm _ _ ?_ hv1
        intro x hx; simp only [mem_append] at hx ⊢; tauto

/-- Minimality half of the qxp_recur invariant.  The flag discipline of the
source is captured by the hypothesis that a false flag certifies a failing
base; the candidate list must be duplicate-free. -/
theorem qxpF_min {oracle : List Nat → Bool} (hm : OMono oracle) :
    ∀ (fuel : Nat) (B Z : List Nat) (newB : Bool) (Q : List Nat),
      Z.Nodup → oracle (B ++ Z) = true → (newB = false → oracle B = false) →
      qxpF oracle fuel B Z newB = some Q →
      ∀ x ∈ Q, oracle (B ++ Q.erase x) = false := by
  intro fuel
  induction fuel with
  | zero => intro B Z newB Q _ _ _ hq; simp [qxpF] at hq
  | succ fuel ih =>
    intro B Z newB Q hnd h hflag hq
    simp only [qxpF] at hq
    by_cases hb : (newB && oracle B) = true
    · rw [if_pos hb] at hq
      obtain rfl : ([] : List Nat) = Q := by simpa using hq
      intro x hx; simp at hx
    · have hB : oracle B = false := by
        cases hnb : newB with
        | false => exact hflag hnb
        | true => rw [hnb] at hb; simpa using hb
      rw [if_neg hb] at hq
      by_cases hl : Z.length = 1
      · rw [if_pos hl] at hq
        obtain rfl : Z = Q := by simpa using hq
        obtain ⟨z, rfl⟩ := length_eq_one.mp hl
        intro x hx
        obtain rfl : x = z := by simpa using hx
        simpa using hB
      · rw [if_neg hl] at hq
        obtain ⟨Q2, hQ2, hrest⟩ := Option.bind_eq_some.mp hq
        obtain ⟨Q1, hQ1, hQ⟩ := Option.bind_eq_some.mp hrest
        obtain rfl : Q1 ++ Q2 = Q := by simpa using hQ
        have h12 : (qxpSplit Z).1 ++ (qxpSplit Z).2 = Z := take_append_drop ..
        have hnd12 : ((qxpSplit Z).1 ++ (qxpSplit Z).2).Nodup := by rwa [h12]
        obtain ⟨hnd1, hnd2, hdisj⟩ := nodup_append.mp hnd12
        have hpre2 : oracle ((B ++ (qxpSplit Z).1) ++ (qxpSplit Z).2) = true := by
          rw [append_assoc, h12]; exact h
        have hv2 := qxpF_valid hm _ _ _ _ _ hpre2 hQ2
        have hmin2 := ih _ _ _ _ hnd2 hpre2 ?flag2 hQ2
        case flag2 =>
          intro hd
          have : (qxpSplit Z).1 = [] := by
            have := of_decide_eq_false hd
            simpa using this
          rw [this, append_nil]; exact hB
        have hpre1 : oracle ((B ++ Q2) ++ (qxpSplit Z).1) = true := by
          refine hm _ _ ?_ hv2
          intro x hx; simp only [mem_append] at hx ⊢; tauto
        have hmin1 := ih _ _ _ _ hnd1 hpre1 ?flag1 hQ1
        case flag1 =>
          intro hd
          have : Q2 = [] := by
            have := of_decide_eq_false hd
            simpa using this
          rw [this, append_nil]; exact hB
        have hsub1 : Q1 <+ (qxpSplit Z).1 := qxpF_sublist oracle _ _ _ _ _ hQ1
        have hsub2 : Q2 <+ (qxpSplit Z).2 := qxpF_sublist oracle _ _ _ _ _ hQ2
        intro x hx
        rcases mem_append.mp hx with hx1 | hx2
        · rw [erase_append_left Q2 hx1]
          refine hm.contra ?_ (hmin1 x hx1)
          intro y hy; simp only [mem_append] at hy ⊢; tauto
        · have hx1 : x ∉ Q1 := fun hc =>
            hdisj (hsub1.subset hc) (hsub2.subset hx2)
          rw [erase_append_right Q2 hx1]
          refine hm.contra ?_ (hmin2 x hx2)
          intro y hy
          simp only [mem_append] at hy ⊢
          rcases hy with hy | hy | hy
          · exact Or.inl (Or.inl hy)
          · exact Or.inl (Or.inr (hsub1.subset hy))
          · exact Or.inr hy

/-- C1 counterexample: with the monotone constant-true oracle and input {5},
axp_qxp returns [5], which is not subset-minimal because the oracle also
accepts the empty set — so the property claimed for axp_qxp under
monotonicity alone fails. -/
theorem c1_counterexample :
    OMono wTrue ∧ wTrue [5] = true ∧ ([5] : List Nat).Nodup ∧
      axp_qxp wTrue [5] = some [5] ∧
      ¬ (∀ x ∈ ([5] : List Nat), wTrue (([5] : List Nat).erase x) = false) := by
  refine ⟨wTrue_mono, rfl, by decide, by decide, ?_⟩
  intro hall
  have := hall 5 (by decide)
  simp [wTrue] at this

/-- C1 (amended): for a duplicate-free S accepted by a monotone waxp, axp_del
returns a sublist that is a subset-minimal weak AXp; axp_qxp does the same
provided additionally that waxp rejects the empty set (without that proviso
axp_qxp can return a non-minimal witness, see the counterexample). -/
theorem c1_minimality_amended {waxp : List Nat → Bool} {S : List Nat}
    (hm : OMono waxp) (hnd : S.Nodup) (hS : waxp S = true) :
    (axp_del waxp S <+ S ∧ waxp (axp_del waxp S) = true ∧
       ∀ x ∈ axp_del waxp S, waxp ((axp_del waxp S).erase x) = false) ∧
    (waxp [] = false →
       ∃ Q, axp_qxp waxp S = some Q ∧ Q <+ S ∧ waxp Q = true ∧
         ∀ x ∈ Q, waxp (Q.erase x) = false) := by
  refine ⟨axp_del_spec hm S hnd hS, fun hemp => ?_⟩
  have hne : 1 ≤ S.length := by
    cases S with
    | nil => rw [hS] at hemp; cases hemp
    | cons a l => simp
  obtain ⟨Q, hQ⟩ := Option.isSome_iff_exists.mp
    (qxpF_isSome waxp S.length [] S false hne le_rfl)
  refine ⟨Q, hQ, qxpF_sublist waxp S.length [] S false Q hQ, ?_, ?_⟩
  · have := qxpF_valid hm S.length [] S false Q (by rwa [nil_append]) hQ
    rwa [nil_append] at this
  · intro x hx
    have := qxpF_min hm S.length [] S false Q hnd (by rwa [nil_append])
      (fun _ => hemp) hQ x hx
    rwa [nil_append] at this

/-- C1 witness: the amended theorem applied to the scenario-1 oracle on the
universe [1, 2, 3]. -/
theorem c1_minimality_witness :
    (axp_del wScn1 [1, 2, 3] <+ [1, 2, 3] ∧ wScn1 (axp_del wScn1 [1, 2, 3]) = true ∧
       ∀ x ∈ axp_del wScn1 [1, 2, 3], wScn1 ((axp_del wScn1 [1, 2, 3]).erase x) = false) ∧
    (∃ Q, axp_qxp wScn1 [1, 2, 3] = some Q ∧ Q <+ [1, 2, 3] ∧ wScn1 Q = true ∧
       ∀ x ∈ Q, wScn1 (Q.erase x) = false) :=
  ⟨(c1_minimality_amended wScn1_mono (by decide) (by decide)).1,
    (c1_minimality_amended wScn1_mono (by decide) (by decide)).2 (by decide)⟩

/-- C4 counterexample: for the three-element candidate list [1, 2, 3] the
first half produced by the split has size 1, not the claimed ceiling
of 3 / 2 = 2. -/
theorem c4_counterexample :
    (qxpSplit [1, 2, 3]).1.length ≠ (([1, 2, 3] : List Nat).length + 1) / 2 := by
  decide

/-- C4 (amended): in each recursive step of qxp_recur with at least two
candidates, Z splits into a first half Z1 of size floor of |Z|/2 and a second
half Z2 of size ceiling of |Z|/2 (the sizes claimed were swapped), and Z2 is
processed first with base B with Z1 appended. -/
theorem c4_split_amended (oracle : List Nat → Bool) (fuel : Nat) (B Z : List Nat)
    (newB : Bool) (hZ : 2 ≤ Z.length) (hskip : (newB && oracle B) = false) :
    ((qxpSplit Z).1.length = Z.length / 2 ∧ (qxpSplit Z).2.length = (Z.length + 1) / 2 ∧
      (qxpSplit Z).1 ++ (qxpSplit Z).2 = Z) ∧
    qxpF oracle (fuel + 1) B Z newB =
      (qxpF oracle fuel (B ++ (qxpSplit Z).1) (qxpSplit Z).2
          (decide (0 < (qxpSplit Z).1.length))).bind fun Q2 =>
        (qxpF oracle fuel (B ++ Q2) (qxpSplit Z).1 (decide (0 < Q2.length))).bind fun Q1 =>
          some (Q1 ++ Q2) := by
  constructor
  · refine ⟨?_, ?_, take_append_drop ..⟩
    · simp only [qxpSplit, length_take]; omega
    · simp only [qxpSplit, length_drop]; omega
  · simp only [qxpF]
    rw [if_neg (by simp [hskip]), if_neg (by omega)]

/-- C4 witness: the amended split theorem at the concrete step with
candidates [7, 8, 9]. -/
theorem c4_split_witness :
    ((qxpSplit [7, 8, 9]).1.length = ([7, 8, 9] : List Nat).length / 2 ∧
      (qxpSplit [7, 8, 9]).2.length = (([7, 8, 9] : List Nat).length + 1) / 2 ∧
      (qxpSplit [7, 8, 9]).1 ++ (qxpSplit [7, 8, 9]).2 = [7, 8, 9]) ∧
    qxpF wTrue 3 [] [7, 8, 9] false =
      (qxpF wTrue 2 ([] ++ (qxpSplit [7, 8, 9]).1) (qxpSplit [7, 8, 9]).2
          (decide (0 < (qxpSplit [7, 8, 9]).1.length))).bind fun Q2 =>
        (qxpF wTrue 2 ([] ++ Q2) (qxpSplit [7, 8, 9]).1 (decide (0 < Q2.length))).bind fun Q1 =>
          some (Q1 ++ Q2) :=
  c4_split_amended wTrue 2 [] [7, 8, 9] false (by decide) (by decide)

/-- C5 counterexample: under the scenario-1 oracle the deletion minimizer
drops feature 1 first (removing it keeps the oracle true via {2, 3}) and
returns [2, 3], so it does not return the claimed set {1}. -/
theorem c5_counterexample :
    axp_del wScn1 [1, 2, 3] = [2, 3] ∧ (1 : Nat) ∉ axp_del wScn1 [1, 2, 3] := by
  decide

/-- C5 (amended): on the scenario-1 oracle, axp_del([1,2,3]) returns exactly
the set {2, 3}, which is a subset-minimal weak AXp (the other minimal witness,
{1}, is not the one this traversal order yields). -/
theorem c5_scenario_amended :
    axp_del wScn1 [1, 2, 3] = [2, 3] ∧ wScn1 [2, 3] = true ∧
      ∀ x ∈ ([2, 3] : List Nat), wScn1 (([2, 3] : List Nat).erase x) = false := by
  decide

/-- The checker loop accepts exactly when no single-element removal keeps the
oracle true. -/
theorem check_loop_iff (oracle : List Nat → Bool) (fix : List Nat) :
    ∀ todo, check_loop oracle fix todo = true ↔ ∀ i ∈ todo, oracle (fix.erase i) = false
  | [] => by simp [check_loop]
  | i :: rest => by
    simp only [check_loop]
    cases h : oracle (fix.erase i) with
    | true =>
      simp only [if_pos rfl]
      constructor
      · intro hfalse; cases hfalse
      · intro hall; exact absurd (hall i (mem_cons_self i rest)) (by simp [h])
    | false =>
      simp only [Bool.false_eq_true, if_false, check_loop_iff oracle fix rest]
      constructor
      · intro hall j hj
        rcases mem_cons.mp hj with rfl | hj
        · exact h
        · exact hall j hj
      · intro hall j hj
        exact hall j (mem_cons_of_mem i hj)

/-- C6: check_axp accepts exactly the candidates that are weak AXps and
subset-minimal, and in particular rejects any candidate failing the oracle
and any candidate with a redundant element; check_cxp is the mirror statement
for the weak-CXp oracle. -/
theorem c6_checker_correct (waxp wcxp : List Nat → Bool) (a c : List Nat) :
    (check_axp waxp a = true ↔
      waxp a = true ∧ ∀ i ∈ a, waxp (a.erase i) = false) ∧
    (check_cxp wcxp c = true ↔
      wcxp c = true ∧ ∀ i ∈ c, wcxp (c.erase i) = false) := by
  constructor
  · unfold check_axp
    cases h : waxp a with
    | true => simp [h, check_loop_iff]
    | false => simp [h]
  · unfold check_cxp
    cases h : wcxp c with
    | true => simp [h, check_loop_iff]
    | false => simp [h]

/-- C6 witness: the checker characterization at the scenario-3 candidate
[1, 2], which check_axp indeed rejects as not subset-minimal. -/
theorem c6_checker_witness :
    ((check_axp wScn1 [1, 2] = true ↔
        wScn1 [1, 2] = true ∧ ∀ i ∈ ([1, 2] : List Nat), wScn1 (([1, 2] : List Nat).erase i) = false) ∧
      (check_cxp wScn1 [1, 2] = true ↔
        wScn1 [1, 2] = true ∧ ∀ i ∈ ([1, 2] : List Nat), wScn1 (([1, 2] : List Nat).erase i) = false)) ∧
    check_axp wScn1 [1, 2] = false :=
  ⟨c6_checker_correct wScn1 wScn1 [1, 2] [1, 2], by decide⟩

/-- C8: axp_del makes exactly one waxp call per element of its input list,
and on the singleton input [5] with waxp({5}) true and waxp({}) false it
returns [5] after exactly one call. -/
theorem c8_oracle_calls (waxp : List Nat → Bool) (S : List Nat) :
    axp_del_calls waxp S = S.length ∧
      (waxp [5] = true → waxp [] = false →
        axp_del waxp [5] = [5] ∧ axp_del_calls waxp [5] = 1) := by
  refine ⟨del_loop_calls_eq waxp S S, fun _ hemp => ⟨?_, del_loop_calls_eq waxp [5] [5]⟩⟩
  simp [axp_del, del_loop, hemp]

/-- C8 witness: the call-count theorem at the membership oracle for feature 5,
with a three-element list for the general count and the singleton boundary
case. -/
theorem c8_oracle_calls_witness :
    axp_del_calls wHas5 [7, 8, 9] = ([7, 8, 9] : List Nat).length ∧
      (axp_del wHas5 [5] = [5] ∧ axp_del_calls wHas5 [5] = 1) :=
  ⟨(c8_oracle_calls wHas5 [7, 8, 9]).1,
    (c8_oracle_calls wHas5 [7, 8, 9]).2 (by decide) (by decide)⟩

/-- C9: the verbose setting influences only the emitted trace, never the
returned value, for every operation of the class: the result component of
each traced operation is identical under any two verbosity levels. -/
theorem c9_verbose_noninterference (v w : Nat) (waxp wcxp : List Nat → Bool)
    (S U a c : List Nat) (res : List (List Nat) × List (List Nat)) :
    (axp_delT v waxp S).1 = (axp_delT w waxp S).1 ∧
    (axp_qxpT v waxp S).1 = (axp_qxpT w waxp S).1 ∧
    (cxp_delT v wcxp U).1 = (cxp_delT w wcxp U).1 ∧
    (cxp_qxpT v wcxp U).1 = (cxp_qxpT w wcxp U).1 ∧
    (check_axpT v waxp a).1 = (check_axpT w waxp a).1 ∧
    (check_cxpT v wcxp c).1 = (check_cxpT w wcxp c).1 ∧
    (enumReportT v res).1 = (enumReportT w res).1 :=
  ⟨rfl, rfl, rfl, rfl, rfl, rfl, rfl⟩

/-- C10: on the empty candidate list the deletion minimizers return the empty
list without querying the oracle, while the QuickXplain recursion never
terminates: qxp_recur(B, [], False) recurses into itself for every fuel
bound, because the empty list fails the singleton test and splits into two
empty halves. -/
theorem c10_empty_input (oracle : List Nat → Bool) :
    axp_del oracle [] = [] ∧ axp_del_calls oracle [] = 0 ∧
    cxp_del oracle [] = [] ∧ cxp_del_calls oracle [] = 0 ∧
    axp_qxp oracle [] = none ∧ cxp_qxp oracle [] = none ∧
    ∀ (fuel : Nat) (B : List Nat), qxpF oracle fuel B [] false = none := by
  refine ⟨rfl, rfl, rfl, rfl, rfl, rfl, ?_⟩
  intro fuel
  induction fuel with
  | zero => intro B; rfl
  | succ fuel ih =>
    intro B
    simp only [qxpF]
    rw [if_neg (by simp), if_neg (by simp)]
    have h1 : qxpF oracle fuel (B ++ (qxpSplit ([] : List Nat)).1) (qxpSplit ([] : List Nat)).2
        (decide (0 < (qxpSplit ([] : List Nat)).1.length)) = none :=
      ih (B ++ (qxpSplit ([] : List Nat)).1)
    rw [h1]
    rfl

/-- The two minimizer dispatchers are the same function: the CXp branch of
enum runs the same algorithm as the AXp branch, only with the other oracle. -/
theorem cxp_min_eq_axp_min (alg : Alg) (oracle : List Nat → Bool) (l : List Nat) :
    cxp_min alg oracle l = axp_min alg oracle l := by
  cases alg <;> rfl

/-- A minimizer result is a sublist of its input, whatever the oracle. -/
theorem xp_min_sublist {alg : Alg} {oracle : List Nat → Bool} {inp out : List Nat}
    (h : axp_min alg oracle inp = some out) : out <+ inp := by
  cases alg with
  | del =>
    obtain rfl : axp_del oracle inp = out := by simpa [axp_min] using h
    exact del_loop_sublist oracle inp inp
  | qxp => exact qxpF_sublist oracle inp.length [] inp false out (by simpa [axp_min, axp_qxp] using h)

/-- A minimizer result still satisfies a monotone oracle that accepted the
input. -/
theorem xp_min_oracle {alg : Alg} {oracle : List Nat → Bool} {inp out : List Nat}
    (hm : OMono oracle) (hpre : oracle inp = true)
    (h : axp_min alg oracle inp = some out) : oracle out = true := by
  cases alg with
  | del =>
    obtain rfl : axp_del oracle inp = out := by simpa [axp_min] using h
    exact del_loop_oracle oracle inp inp hpre
  | qxp =>
    have := qxpF_valid hm inp.length [] inp false out (by rwa [nil_append])
      (by simpa [axp_min, axp_qxp] using h)
    rwa [nil_append] at this

/-- Membership in the fixed part computed by enum. -/
theorem mem_enumFix {feats univ : List Nat} {x : Nat} :
    x ∈ enumFix feats univ ↔ x ∈ feats ∧ x ∉ univ := by
  simp [enumFix, mem_filter]

/-- The fixed part computed from a sampled model is the filter of the
complemented assignment. -/
theorem enumFix_filter (feats : List Nat) (σ : Nat → Bool) :
    enumFix feats (feats.filter σ) = feats.filter fun i => !(σ i) := by
  unfold enumFix
  apply filter_congr
  intro x hx
  cases h : σ x <;> simp [mem_filter, hx, h]

/-- Every explanation collected by a run satisfies its oracle and lives inside
the feature universe; the AXp branch needs the duality contract to know that
the sampled fixed part is a weak AXp. -/
theorem erun_valid {alg : Alg} {waxp wcxp : List Nat → Bool} {feats : List Nat}
    (hma : OMono waxp) (hmc : OMono wcxp) (hd : EDual feats waxp wcxp)
    {σs : List (Nat → Bool)} {s : EState} (hrun : ERun alg waxp wcxp feats σs s) :
    (∀ a ∈ s.axps, waxp a = true ∧ ∀ x ∈ a, x ∈ feats) ∧
    (∀ c ∈ s.cxps, wcxp c = true ∧ ∀ x ∈ c, x ∈ feats) := by
  induction hrun with
  | init => exact ⟨by simp, by simp⟩
  | stepC σs s σ c hr hsat hcls hmin ih =>
    refine ⟨ih.1, ?_⟩
    intro d hd'
    rcases mem_append.mp hd' with hd' | hd'
    · exact ih.2 d hd'
    · obtain rfl : d = c := by simpa using hd'
      rw [cxp_min_eq_axp_min] at hmin
      refine ⟨xp_min_oracle hmc hcls hmin, ?_⟩
      intro x hx
      exact mem_of_mem_filter ((xp_min_sublist hmin).subset hx)
  | stepA σs s σ a hr hsat hcls hmin ih =>
    refine ⟨?_, ih.2⟩
    intro b hb
    rcases mem_append.mp hb with hb | hb
    · exact ih.1 b hb
    · obtain rfl : b = a := by simpa using hb
      have hwf : waxp (enumFix feats (feats.filter σ)) = true := by
        rw [enumFix_filter]
        rw [hd σ] at hcls
        simpa using hcls
      refine ⟨xp_min_oracle hma hwf hmin, ?_⟩
      intro x hx
      exact (mem_enumFix.mp ((xp_min_sublist hmin).subset hx)).1

/-- C2 (amended): under monotone oracles that additionally satisfy the
duality contract wcxp(U) = not waxp(complement of U), every AXp and every CXp
collected by any run of the enumeration loop intersect.  Without the duality
hypothesis the claim fails, see the counterexample. -/
theorem c2_duality_amended {alg : Alg} {waxp wcxp : List Nat → Bool} {feats : List Nat}
    (hma : OMono waxp) (hmc : OMono wcxp) (hd : EDual feats waxp wcxp)
    {σs : List (Nat → Bool)} {s : EState} (hrun : ERun alg waxp wcxp feats σs s) :
    ∀ a ∈ s.axps, ∀ c ∈ s.cxps, ∃ x, x ∈ a ∧ x ∈ c := by
  intro a ha c hc
  obtain ⟨hax, hcx⟩ := erun_valid hma hmc hd hrun
  obtain ⟨hwa, hasub⟩ := hax a ha
  obtain ⟨hwc, hcsub⟩ := hcx c hc
  by_contra hnone
  push_neg at hnone
  have h1 : wcxp (feats.filter fun i => decide (i ∈ c)) = true := by
    refine hmc c _ ?_ hwc
    intro x hx
    simp [mem_filter, hcsub x hx, hx]
  have h2 := hd fun i => decide (i ∈ c)
  rw [h1] at h2
  have h3 : waxp (feats.filter fun i => !(decide (i ∈ c))) = true := by
    refine hma a _ ?_ hwa
    intro x hx
    simp [mem_filter, hasub x hx]
    exact hnone x hx
  rw [h3] at h2
  cases h2

/-- A two-iteration run over the universe [1] with the dual oracle pair
waxp = wcxp = membership of feature 1: the first sample (all fixed) yields the
AXp [1], the second (all universal) yields the CXp [1]. -/
theorem run_dual : ERun Alg.del wHas1 wHas1 [1] [sigNone, sigAll]
    ⟨[BClause.pos [1], BClause.neg [1]], [[1]], [[1]]⟩ :=
  ERun.stepC [sigNone] ⟨[BClause.pos [1]], [[1]], []⟩ sigAll [1]
    (ERun.stepA [] ⟨[], [], []⟩ sigNone [1] ERun.init rfl rfl rfl) rfl rfl rfl

/-- The membership oracle pair is dual over the universe [1]. -/
theorem edual_has1 : EDual [1] wHas1 wHas1 := by
  intro σ
  cases h : σ 1 <;> simp [wHas1, List.filter, h]

/-- A two-iteration run over [1, 2] with the non-dual pair waxp constantly
true, wcxp = membership of feature 1: sampling {1} as universal yields the
CXp [1]; then sampling all-fixed classifies as the AXp branch, where the
constant-true oracle deletes everything and yields the AXp []. -/
theorem run_nondual : ERun Alg.del wTrue wHas1 [1, 2] [sigOnly1, sigNone]
    ⟨[BClause.neg [1], BClause.pos []], [[]], [[1]]⟩ :=
  ERun.stepA [sigOnly1] ⟨[BClause.neg [1]], [], [[1]]⟩ sigNone []
    (ERun.stepC [] ⟨[], [], []⟩ sigOnly1 [1] ERun.init rfl rfl rfl) rfl rfl rfl

/-- C2 counterexample: with monotone, deterministic oracles that are not dual
to each other, a run of the enumeration loop can collect the AXp [] and the
CXp [1], which do not intersect — so monotonicity and determinism alone do
not give the claimed duality invariant. -/
theorem c2_counterexample :
    OMono wTrue ∧ OMono wHas1 ∧
      ERun Alg.del wTrue wHas1 [1, 2] [sigOnly1, sigNone]
        ⟨[BClause.neg [1], BClause.pos []], [[]], [[1]]⟩ ∧
      ([] : List Nat) ∈ (⟨[BClause.neg [1], BClause.pos []], [[]], [[1]]⟩ : EState).axps ∧
      [1] ∈ (⟨[BClause.neg [1], BClause.pos []], [[]], [[1]]⟩ : EState).cxps ∧
      ¬ ∃ x, x ∈ ([] : List Nat) ∧ x ∈ ([1] : List Nat) := by
  refine ⟨wTrue_mono, wHas1_mono, run_nondual, by simp, by simp, ?_⟩
  rintro ⟨x, hx, -⟩
  cases hx

/-- C2 witness: the amended duality theorem applied to the dual run over [1],
whose single AXp [1] and single CXp [1] indeed intersect. -/
theorem c2_duality_witness : ∃ x, x ∈ ([1] : List Nat) ∧ x ∈ ([1] : List Nat) :=
  c2_duality_amended wHas1_mono wHas1_mono edual_has1 run_dual [1] (by simp) [1] (by simp)

/-- Every collected explanation has its blocking clause in the clause
database of the run. -/
theorem erun_blocked {alg : Alg} {waxp wcxp : List Nat → Bool} {feats : List Nat}
    {σs : List (Nat → Bool)} {s : EState} (hrun : ERun alg waxp wcxp feats σs s) :
    (∀ a ∈ s.axps, BClause.pos a ∈ s.clauses) ∧
    (∀ c ∈ s.cxps, BClause.neg c ∈ s.clauses) := by
  induction hrun with
  | init => exact ⟨by simp, by simp⟩
  | stepC σs s σ c hr hsat hcls hmin ih =>
    refine ⟨fun a ha => mem_append_left _ (ih.1 a ha), fun d hd => ?_⟩
    rcases mem_append.mp hd with hd | hd
    · exact mem_append_left _ (ih.2 d hd)
    · obtain rfl : d = c := by simpa using hd
      exact mem_append_right _ (by simp)
  | stepA σs s σ a hr hsat hcls hmin ih =>
    refine ⟨fun b hb => ?_, fun c hc => mem_append_left _ (ih.2 c hc)⟩
    rcases mem_append.mp hb with hb | hb
    · exact mem_append_left _ (ih.1 b hb)
    · obtain rfl : b = a := by simpa using hb
      exact mem_append_right _ (by simp)

/-- C7: no run of the enumeration loop ever collects two AXps with the same
element content, nor two CXps with the same element content: the blocking
clause recorded for the earlier explanation is satisfied by the sample that
produced the later one, while set-equal explanations would falsify it. -/
theorem c7_no_duplicates {alg : Alg} {waxp wcxp : List Nat → Bool} {feats : List Nat}
    {σs : List (Nat → Bool)} {s : EState} (hrun : ERun alg waxp wcxp feats σs s) :
    s.axps.Pairwise (fun a b => ¬ EqSet a b) ∧
    s.cxps.Pairwise (fun a b => ¬ EqSet a b) := by
  induction hrun with
  | init => exact ⟨by simp, by simp⟩
  | stepC σs s σ c hr hsat hcls hmin ih =>
    refine ⟨ih.1, ?_⟩
    rw [pairwise_append]
    refine ⟨ih.2, pairwise_singleton _ _, ?_⟩
    intro d hd c' hc' heq
    have hcc : c' = c := by simpa using hc'
    have hpd : BClause.neg d ∈ s.clauses := (erun_blocked hr).2 d hd
    have hbs : bsat σ (BClause.neg d) = true := all_eq_true.mp hsat _ hpd
    obtain ⟨i, hid, hσi⟩ : ∃ i ∈ d, σ i = false := by
      simpa [bsat] using hbs
    have hic : i ∈ c := by rw [← hcc]; exact (heq i).mp hid
    have : σ i = true := by
      rw [cxp_min_eq_axp_min] at hmin
      have := (xp_min_sublist hmin).subset hic
      exact (mem_filter.mp this).2
    rw [hσi] at this
    cases this
  | stepA σs s σ a hr hsat hcls hmin ih =>
    refine ⟨?_, ih.2⟩
    rw [pairwise_append]
    refine ⟨ih.1, pairwise_singleton _ _, ?_⟩
    intro b hb a' ha' heq
    have haa : a' = a := by simpa using ha'
    have hpb : BClause.pos b ∈ s.clauses := (erun_blocked hr).1 b hb
    have hbs : bsat σ (BClause.pos b) = true := all_eq_true.mp hsat _ hpb
    obtain ⟨i, hib, hσi⟩ : ∃ i ∈ b, σ i = true := by
      simpa [bsat] using hbs
    have hia : i ∈ a := by rw [← haa]; exact (heq i).mp hib
    have : i ∉ feats.filter σ := (mem_enumFix.mp ((xp_min_sublist hmin).subset hia)).2
    exact this (mem_filter.mpr ⟨(mem_enumFix.mp ((xp_min_sublist hmin).subset hia)).1, hσi⟩)

/-- C7 witness: the no-duplicates theorem applied to the dual run over [1]. -/
theorem c7_no_duplicates_witness :
    (⟨[BClause.pos [1], BClause.neg [1]], [[1]], [[1]]⟩ : EState).axps.Pairwise
        (fun a b => ¬ EqSet a b) ∧
      (⟨[BClause.pos [1], BClause.neg [1]], [[1]], [[1]]⟩ : EState).cxps.Pairwise
        (fun a b => ¬ EqSet a b) :=
  c7_no_duplicates run_dual

/-- The binary value of a bit list is below 2 to its length. -/
theorem bitsToNat_lt : ∀ l : List Bool, bitsToNat l < 2 ^ l.length
  | [] => by simp [bitsToNat]
  | b :: r => by
    have ih := bitsToNat_lt r
    simp only [bitsToNat, length_cons, pow_succ]
    cases b <;> simp <;> omega

/-- On lists of equal length the binary value determines the bits. -/
theorem bitsToNat_inj : ∀ l₁ l₂ : List Bool, l₁.length = l₂.length →
    bitsToNat l₁ = bitsToNat l₂ → l₁ = l₂
  | [], [], _, _ => rfl
  | [], _ :: _, h, _ => by simp at h
  | _ :: _, [], h, _ => by simp at h
  | b₁ :: r₁, b₂ :: r₂, h, he => by
    have hlen : r₁.length = r₂.length := by simpa using h
    simp only [bitsToNat] at he
    have hb : b₁ = b₂ ∧ bitsToNat r₁ = bitsToNat r₂ := by
      cases b₁ <;> cases b₂ <;> simp at he ⊢ <;> omega
    rw [hb.1, bitsToNat_inj r₁ r₂ hlen hb.2]

/-- Two assignments mapping to the same key agree on every feature. -/
theorem map_eq_map_mem : ∀ (l : List Nat) (f g : Nat → Bool),
    l.map f = l.map g → ∀ x ∈ l, f x = g x
  | [], _, _, _ => by intro x hx; cases hx
  | a :: l, f, g, h => by
    simp only [map_cons, cons.injEq] at h
    intro x hx
    rcases mem_cons.mp hx with rfl | hx
    · exact h.1
    · exact map_eq_map_mem l f g h.2 x hx

/-- Progress invariant of the enumeration loop: every clause only mentions
features of the universe, the restrictions of the sampled assignments to the
universe are pairwise distinct, and any assignment satisfying the current
clause database is fresh (its restriction was never sampled).  Freshness holds
because each blocking clause is falsified by the very sample that produced it,
while any later satisfying assignment must satisfy it. -/
theorem erun_keys {alg : Alg} {waxp wcxp : List Nat → Bool} {feats : List Nat}
    {σs : List (Nat → Bool)} {s : EState} (hrun : ERun alg waxp wcxp feats σs s) :
    (∀ cl ∈ s.clauses, ∀ i ∈ clVars cl, i ∈ feats) ∧
    (σs.map fun σ => feats.map σ).Nodup ∧
    (∀ τ : Nat → Bool, satAll s.clauses τ = true →
      feats.map τ ∉ σs.map fun σ => feats.map σ) := by
  induction hrun with
  | init => exact ⟨by simp, by simp, by simp⟩
  | stepC σs s σ c hr hsat hcls hmin ih =>
    obtain ⟨ihv, ihnd, ihf⟩ := ih
    rw [cxp_min_eq_axp_min] at hmin
    have hcf : ∀ i ∈ c, i ∈ feats.filter σ := fun i hi => (xp_min_sublist hmin).subset hi
    refine ⟨?_, ?_, ?_⟩
    · intro cl hcl i hi
      rcases mem_append.mp hcl with h | h
      · exact ihv cl h i hi
      · obtain rfl : cl = BClause.neg c := by simpa using h
        exact mem_of_mem_filter (hcf i (by simpa [clVars] using hi))
    · rw [map_append]
      refine nodup_append.mpr ⟨ihnd, by simp, ?_⟩
      intro k hk1 hk2
      obtain rfl : k = feats.map σ := by simpa using hk2
      exact ihf σ hsat hk1
    · intro τ hτ
      have hsplit : satAll s.clauses τ = true ∧ bsat τ (BClause.neg c) = true := by
        simpa [satAll, all_append] using hτ
      rw [map_append, mem_append]
      rintro (h | h)
      · exact ihf τ hsplit.1 h
      · have hkey : feats.map τ = feats.map σ := by simpa using h
        have hagree := map_eq_map_mem feats τ σ hkey
        obtain ⟨i, hic, hτi⟩ : ∃ i ∈ c, τ i = false := by
          simpa [bsat] using hsplit.2
        have hif := hcf i hic
        have hσi : σ i = true := (mem_filter.mp hif).2
        rw [hagree i (mem_of_mem_filter hif), hσi] at hτi
        cases hτi
  | stepA σs s σ a hr hsat hcls hmin ih =>
    obtain ⟨ihv, ihnd, ihf⟩ := ih
    have haf : ∀ i ∈ a, i ∈ enumFix feats (feats.filter σ) := fun i hi =>
      (xp_min_sublist hmin).subset hi
    refine ⟨?_, ?_, ?_⟩
    · intro cl hcl i hi
      rcases mem_append.mp hcl with h | h
      · exact ihv cl h i hi
      · obtain rfl : cl = BClause.pos a := by simpa using h
        exact (mem_enumFix.mp (haf i (by simpa [clVars] using hi))).1
    · rw [map_append]
      refine nodup_append.mpr ⟨ihnd, by simp, ?_⟩
      intro k hk1 hk2
      obtain rfl : k = feats.map σ := by simpa using hk2
      exact ihf σ hsat hk1
    · intro τ hτ
      have hsplit : satAll s.clauses τ = true ∧ bsat τ (BClause.pos a) = true := by
        simpa [satAll, all_append] using hτ
      rw [map_append, mem_append]
      rintro (h | h)
      · exact ihf τ hsplit.1 h
      · have hkey : feats.map τ = feats.map σ := by simpa using h
        have hagree := map_eq_map_mem feats τ σ hkey
        obtain ⟨i, hia, hτi⟩ : ∃ i ∈ a, τ i = true := by
          simpa [bsat] using hsplit.2
        have hif := mem_enumFix.mp (haf i hia)
        have hσi : σ i = false := by
          cases hv : σ i with
          | false => rfl
          | true => exact absurd (mem_filter.mpr ⟨hif.1, hv⟩) hif.2
        rw [hagree i hif.1, hσi] at hτi
        cases hτi

/-- C3: every run of the enumeration loop performs at most 2 to the number of
features iterations (the sampled assignments restricted to the universe are
pairwise distinct bit vectors), and the number of iterations equals the number
of collected AXps plus collected CXps, because each iteration appends exactly
one explanation. -/
theorem c3_enum_termination {alg : Alg} {waxp wcxp : List Nat → Bool} {feats : List Nat}
    {σs : List (Nat → Bool)} {s : EState} (hrun : ERun alg waxp wcxp feats σs s) :
    σs.length ≤ 2 ^ feats.length ∧ s.axps.length + s.cxps.length = σs.length := by
  constructor
  · have hnd := (erun_keys hrun).2.1
    have hlen : ∀ k ∈ σs.map fun σ => feats.map σ, k.length = feats.length := by
      intro k hk
      obtain ⟨σ, -, rfl⟩ := mem_map.mp hk
      exact length_map feats σ
    have hnd2 : ((σs.map fun σ => feats.map σ).map bitsToNat).Nodup :=
      hnd.map_on fun x hx y hy hxy =>
        bitsToNat_inj x y (by rw [hlen x hx, hlen y hy]) hxy
    have hsub : ((σs.map fun σ => feats.map σ).map bitsToNat).toFinset ⊆
        Finset.range (2 ^ feats.length) := by
      intro n hn
      rw [List.mem_toFinset] at hn
      obtain ⟨k, hk, rfl⟩ := mem_map.mp hn
      refine Finset.mem_range.mpr ?_
      have := bitsToNat_lt k
      rwa [hlen k hk] at this
    have hfin : ((σs.map fun σ => feats.map σ).map bitsToNat).length ≤ 2 ^ feats.length := by
      rw [← toFinset_card_of_nodup hnd2]
      calc ((σs.map fun σ => feats.map σ).map bitsToNat).toFinset.card
          ≤ (Finset.range (2 ^ feats.length)).card := Finset.card_le_card hsub
        _ = 2 ^ feats.length := Finset.card_range _
    simpa using hfin
  · induction hrun with
    | init => rfl
    | stepC σs s σ c hr hsat hcls hmin ih =>
      simp only [length_append, length_cons, length_nil]
      omega
    | stepA σs s σ a hr hsat hcls hmin ih =>
      simp only [length_append, length_cons, length_nil]
      omega

/-- C3 witness: the iteration-count theorem applied to the two-iteration dual
run over the singleton universe [1]. -/
theorem c3_enum_termination_witness :
    ([sigNone, sigAll] : List (Nat → Bool)).length ≤ 2 ^ ([1] : List Nat).length ∧
      (⟨[BClause.pos [1], BClause.neg [1]], [[1]], [[1]]⟩ : EState).axps.length +
        (⟨[BClause.pos [1], BClause.neg [1]], [[1]], [[1]]⟩ : EState).cxps.length =
        ([sigNone, sigAll] : List (Nat → Bool)).length :=
  c3_enum_termination run_dual
